import Mathlib

/-
Verification of the constrained shortest-path engine of day 17
(`src/17/src/main.rs` and `src/17/src/heat_loss_map.rs`).

Shallow embedding notes:
* `u8` / `u32` / `usize` values are modelled as `Nat`.  All cell costs
  reaching the engine are single decimal digits (the parser accepts only
  ASCII digits), run lengths stay strictly below `max_blocks_straight`
  (which is at most 255 for `u8`), and coordinates stay inside the grid,
  so none of the machine arithmetic performed by the program can wrap;
  the spec's numeric contract likewise states accumulation as exact
  integer arithmetic.
* Rust's `BinaryHeap<Reverse<State>>` pops some minimal element with an
  unspecified tie order; the model pops the first minimal element of a
  list.  No theorem below depends on the tie order, only on minimality.
* `dist[&state]` (a panicking index) is modelled with `Option.getD 0`;
  the lookup is total in the program because every queued state is first
  recorded in `dist`, which never shrinks.
* The fuel parameter of the search loop makes the recursion structural;
  `spFuel` is proven sufficient, so the fuel-exhaustion branch (result
  `none` of the outer `Option`) is unreachable.
-/

namespace Day17

/-- Grid coordinate, `src/17/src/heat_loss_map.rs` (`Position { y, x }`). -/
structure Position where
  y : Nat
  x : Nat
deriving DecidableEq

/-- Per-cell cost grid, `src/17/src/heat_loss_map.rs` (`HeatLossMap`). -/
structure HeatLossMap where
  values : List Nat
  width : Nat
  height : Nat
deriving DecidableEq

/-- `HeatLossMap::get_index`. -/
def HeatLossMap.get_index (m : HeatLossMap) (p : Position) : Nat :=
  p.y * m.width + p.x

/-- `HeatLossMap::get`: `None` outside `[0,width) × [0,height)`, otherwise the
cell value.  The in-range vector access of the source is total for every
well-formed map (`values.length = width * height`). -/
def HeatLossMap.get (m : HeatLossMap) (p : Position) : Option Nat :=
  if p.x ≥ m.width ∨ p.y ≥ m.height then none
  else m.values.get? (m.get_index p)

/-- Well-formedness invariant of a cost map stated by the spec: rectangular
grid, at least one row, at least one column. -/
def WellFormed (m : HeatLossMap) : Prop :=
  m.values.length = m.width * m.height ∧ 0 < m.width ∧ 0 < m.height

/-- The four cardinal directions, `src/17/src/main.rs`. -/
inductive Direction where
  | Up
  | Left
  | Down
  | Right
deriving DecidableEq

/-- Opposite cardinal direction; vocabulary used by the spec's
"no backtracking" rule (the source encodes the rule by omission in
`next_turns`). -/
def Direction.reverse : Direction → Direction
  | .Up => .Down
  | .Left => .Right
  | .Down => .Up
  | .Right => .Left

/-- `get_adjacent_position` of `src/17/src/main.rs`: one step in a direction,
`None` when the step would leave the quadrant (x or y would go below 0). -/
def get_adjacent_position (position : Position) (direction : Direction) : Option Position :=
  match direction with
  | .Down => some ⟨position.y + 1, position.x⟩
  | .Left => if position.x = 0 then none else some ⟨position.y, position.x - 1⟩
  | .Up => if position.y = 0 then none else some ⟨position.y - 1, position.x⟩
  | .Right => some ⟨position.y, position.x + 1⟩

/-- Search state of `src/17/src/main.rs` (`struct State`). -/
structure State where
  position : Position
  total_heat_loss : Nat
  direction : Option Direction
  distance_in_current_direction : Nat
deriving DecidableEq

/-- Identity key of a `State`: the Rust `PartialEq`/`Hash` implementations
ignore `total_heat_loss`, so the best-cost table is keyed by this triple. -/
structure Key where
  position : Position
  direction : Option Direction
  distance_in_current_direction : Nat
deriving DecidableEq

/-- Projection of a state to its identity key. -/
def State.key (s : State) : Key :=
  ⟨s.position, s.direction, s.distance_in_current_direction⟩

/-- Rebuild a state from a key and an accumulated cost. -/
def Key.toState (k : Key) (v : Nat) : State :=
  ⟨k.position, v, k.direction, k.distance_in_current_direction⟩

/-- The `next_turns` table of `get_next_states`: candidate directions paired
with the `is_straight` flag, exactly as listed in the source `match`. -/
def next_turns : Option Direction → List (Direction × Bool)
  | some .Up => [(.Left, false), (.Up, true), (.Right, false)]
  | some .Left => [(.Down, false), (.Left, true), (.Up, false)]
  | some .Down => [(.Right, false), (.Down, true), (.Left, false)]
  | some .Right => [(.Down, false), (.Right, true), (.Up, false)]
  | none => [(.Left, true), (.Up, true), (.Right, true), (.Down, true)]

/-- Body of the `for (turn, is_straight) in next_turns` loop of
`get_next_states`: `none` when the candidate is skipped (`continue`). -/
def candidate (m : HeatLossMap) (state : State) (min_blocks_straight max_blocks_straight : Nat)
    (turn : Direction) (is_straight : Bool) : Option State :=
  if is_straight = false ∧ state.distance_in_current_direction < min_blocks_straight then none
  else
    match get_adjacent_position state.position turn with
    | none => none
    | some position =>
      match m.get position with
      | none => none
      | some current_g_score =>
        let total_heat_loss := state.total_heat_loss + current_g_score
        let distance_in_current_direction :=
          if state.direction = none ∨ is_straight = true
          then state.distance_in_current_direction + 1 else 1
        if max_blocks_straight ≤ distance_in_current_direction then none
        else some ⟨position, total_heat_loss, some turn, distance_in_current_direction⟩

/-- `get_next_states` of `src/17/src/main.rs`. -/
def get_next_states (m : HeatLossMap) (state : State)
    (min_blocks_straight max_blocks_straight : Nat) : List State :=
  (next_turns state.direction).filterMap
    (fun td => candidate m state min_blocks_straight max_blocks_straight td.1 td.2)

/-- Association-list model of the `HashMap<State, HeatLossAmount>` best-cost
table; insertion conses, lookup takes the first (most recent) binding. -/
def dlookup : List (Key × Nat) → Key → Option Nat
  | [], _ => none
  | kv :: rest, k => if kv.1 = k then some kv.2 else dlookup rest k

/-- Extract a minimal-cost element (first minimal in list order): model of
`MinPriorityQueue::pop`, which pops some element of minimal
`total_heat_loss`. -/
def popMinAux (best : State) : List State → State × List State
  | [] => (best, [])
  | x :: xs =>
    if x.total_heat_loss < best.total_heat_loss then
      let p := popMinAux x xs
      (p.1, best :: p.2)
    else
      let p := popMinAux best xs
      (p.1, x :: p.2)

/-- Pop of the min-priority queue. -/
def heapPop : List State → Option (State × List State)
  | [] => none
  | x :: xs => some (popMinAux x xs)

/-- The `for next_state in get_next_states(..)` relaxation loop of
`shortest_path`: skips a successor whose recorded cost is already at most
as small, otherwise records it in `dist` and pushes it on the queue.
Returns the new table, the new queue, and the list of pushed states. -/
def relaxAll (dist : List (Key × Nat)) (heap : List State) :
    List State → List (Key × Nat) × List State × List State
  | [] => (dist, heap, [])
  | n :: ns =>
    let skip : Bool :=
      match dlookup dist n.key with
      | some existing => existing ≤ n.total_heat_loss
      | none => false
    if skip then relaxAll dist heap ns
    else
      let r := relaxAll ((n.key, n.total_heat_loss) :: dist) (n :: heap) ns
      (r.1, r.2.1, n :: r.2.2)

/-- The `while let Some(state) = heap.pop()` loop of `shortest_path`,
instrumented with a trace: besides the result it returns the list of popped
states (each tagged `true` when it was discarded as stale) and the list of
states pushed onto the queue.  The outer `Option` is `none` exactly when the
fuel runs out, which `spFuel_sufficient` below rules out. -/
def spLoop (m : HeatLossMap) (goal : Position) (min_blocks_straight max_blocks_straight : Nat) :
    Nat → List (Key × Nat) → List State →
    Option (Option Nat) × List (State × Bool) × List State
  | 0, _, _ => (none, [], [])
  | fuel + 1, dist, heap =>
    match heapPop heap with
    | none => (some none, [], [])
    | some sh =>
      if sh.1.position = goal ∧ min_blocks_straight ≤ sh.1.distance_in_current_direction then
        (some (some sh.1.total_heat_loss), [(sh.1, false)], [])
      else
        if (dlookup dist sh.1.key).getD 0 < sh.1.total_heat_loss then
          let r := spLoop m goal min_blocks_straight max_blocks_straight fuel dist sh.2
          (r.1, (sh.1, true) :: r.2.1, r.2.2)
        else
          let ra := relaxAll dist sh.2
            (get_next_states m sh.1 min_blocks_straight max_blocks_straight)
          let r := spLoop m goal min_blocks_straight max_blocks_straight fuel ra.1 ra.2.1
          (r.1, (sh.1, false) :: r.2.1, ra.2.2 ++ r.2.2)

/-- All identity keys a queued state can carry: the initial key plus every
in-bounds position with an established direction and a run length below
`max_blocks_straight`.  Its length bounds the number of expansions. -/
def keyList (m : HeatLossMap) (start : Position) (max_blocks_straight : Nat) : List Key :=
  ⟨start, none, 0⟩ ::
    (List.range m.height).flatMap fun y =>
      (List.range m.width).flatMap fun x =>
        [Direction.Up, Direction.Left, Direction.Down, Direction.Right].flatMap fun d =>
          (List.range max_blocks_straight).map fun dd => ⟨⟨y, x⟩, some d, dd⟩

/-- Fuel sufficient for the search loop to run to completion. -/
def spFuel (m : HeatLossMap) (start : Position) (max_blocks_straight : Nat) : Nat :=
  4 * (keyList m start max_blocks_straight).length + 2

/-- The initial search state of `shortest_path`. -/
def initState (start : Position) : State :=
  ⟨start, 0, none, 0⟩

/-- One full instrumented run of the search loop, started from the initial
table and queue built by `shortest_path`. -/
def spRun (m : HeatLossMap) (start goal : Position)
    (min_blocks_straight max_blocks_straight : Nat) :
    Option (Option Nat) × List (State × Bool) × List State :=
  spLoop m goal min_blocks_straight max_blocks_straight
    (spFuel m start max_blocks_straight)
    [((initState start).key, 0)] [initState start]

/-- `shortest_path` of `src/17/src/main.rs`. -/
def shortest_path (m : HeatLossMap) (start goal : Position)
    (min_blocks_straight max_blocks_straight : Nat) : Option Nat :=
  match (spRun m start goal min_blocks_straight max_blocks_straight).1 with
  | some r => r
  | none => none

/-- Parse a single character the way `c.to_string().parse::<u32>()` does:
only an ASCII digit succeeds. -/
def charToDigit (c : Char) : Option Nat :=
  if c.isDigit then some (c.toNat - 48) else none

/-- Error type of the `FromStr` implementation for `HeatLossMap`. -/
inductive ParseHeatLossMapError where
  | ParseHeatLossAmountError
deriving DecidableEq

/-- Split a character sequence at newline characters, with the semantics of
Rust's `str::split('\n')`: adjacent, leading and trailing separators yield
empty pieces (input text is modelled as a list of characters). -/
def splitLines : List Char → List (List Char)
  | [] => [[]]
  | c :: cs =>
    match splitLines cs with
    | [] => [[]]
    | l :: ls => if c = '\n' then [] :: l :: ls else (c :: l) :: ls

/-- `<HeatLossMap as FromStr>::from_str`.  The outer `Option` models the
panic of `rows.first().unwrap()`: `none` means the program panics (which
happens exactly when no non-empty line exists); `some` carries the returned
`Result`. -/
def from_str (s : List Char) : Option (Except ParseHeatLossMapError HeatLossMap) :=
  let lines := (splitLines s).filter (fun line => ¬ line = [])
  match lines.mapM (fun line => line.mapM charToDigit) with
  | none => some (Except.error ParseHeatLossMapError.ParseHeatLossAmountError)
  | some rows =>
    match rows with
    | [] => none
    | first :: _ =>
      some (Except.ok ⟨rows.flatten, first.length, rows.length⟩)

/-- Goal test on identity keys: position reached with a long enough run. -/
def GoalKey (goal : Position) (min_blocks_straight : Nat) (k : Key) : Prop :=
  k.position = goal ∧ min_blocks_straight ≤ k.distance_in_current_direction

/-- One legal motion-model transition: `b` is among the successors the code
generates from `a`. -/
def stepRel (m : HeatLossMap) (min_blocks_straight max_blocks_straight : Nat)
    (a b : State) : Prop :=
  b ∈ get_next_states m a min_blocks_straight max_blocks_straight

/-- `z` is reached from the initial state by a sequence of legal transitions;
`z.total_heat_loss` is the total entering-cost of that sequence. -/
def ReachesFrom (m : HeatLossMap) (start : Position)
    (min_blocks_straight max_blocks_straight : Nat) (z : State) : Prop :=
  Relation.ReflTransGen (stepRel m min_blocks_straight max_blocks_straight) (initState start) z

/-- Concrete 3×3 all-ones grid of the spec's scenario A. -/
def map3 : HeatLossMap :=
  ⟨[1, 1, 1, 1, 1, 1, 1, 1, 1], 3, 3⟩

/-- Concrete 1×2 all-ones grid (one row, two columns). -/
def map12 : HeatLossMap :=
  ⟨[1, 1], 2, 1⟩

/-- Concrete 1×5 all-ones grid (one row, five columns). -/
def mapRow : HeatLossMap :=
  ⟨[1, 1, 1, 1, 1], 5, 1⟩

/-- Concrete single-cell grid. -/
def map1 : HeatLossMap :=
  ⟨[1], 1, 1⟩

/-! Basic facts about the motion model. -/

lemma get_some_bounds {m : HeatLossMap} {p : Position} {c : Nat}
    (h : m.get p = some c) : p.x < m.width ∧ p.y < m.height := by
  unfold HeatLossMap.get at h
  by_cases hb : p.x ≥ m.width ∨ p.y ≥ m.height
  · rw [if_pos hb] at h; cases h
  · push_neg at hb; exact hb

lemma candidate_eq_some {m : HeatLossMap} {s : State} {minB maxB : Nat}
    {t : Direction} {b : Bool} {n : State} :
    candidate m s minB maxB t b = some n ↔
      (b = false → minB ≤ s.distance_in_current_direction) ∧
      ∃ p c, get_adjacent_position s.position t = some p ∧ m.get p = some c ∧
        (if s.direction = none ∨ b = true then s.distance_in_current_direction + 1 else 1) < maxB ∧
        n = ⟨p, s.total_heat_loss + c, some t,
          if s.direction = none ∨ b = true then s.distance_in_current_direction + 1 else 1⟩ := by
  constructor
  · intro h
    unfold candidate at h
    by_cases hgate : b = false ∧ s.distance_in_current_direction < minB
    · rw [if_pos hgate] at h; cases h
    · rw [if_neg hgate] at h
      cases hadj : get_adjacent_position s.position t with
      | none => rw [hadj] at h; cases h
      | some p =>
        rw [hadj] at h
        dsimp only [] at h
        cases hget : m.get p with
        | none => rw [hget] at h; cases h
        | some c =>
          rw [hget] at h
          dsimp only [] at h
          by_cases hcap :
              maxB ≤ (if s.direction = none ∨ b = true
                then s.distance_in_current_direction + 1 else 1)
          · rw [if_pos hcap] at h; cases h
          · rw [if_neg hcap] at h
            refine ⟨?_, p, c, rfl, hget, by omega, (Option.some.inj h).symm⟩
            intro hb
            rcases Nat.lt_or_ge s.distance_in_current_direction minB with hlt | hge
            · exact absurd ⟨hb, hlt⟩ hgate
            · exact hge
  · rintro ⟨himp, p, c, hadj, hget, hcap, hn⟩
    unfold candidate
    rw [if_neg (by rintro ⟨hb, hlt⟩; have := himp hb; omega), hadj]
    dsimp only []
    rw [hget]
    dsimp only []
    rw [if_neg (by omega)]
    rw [hn]

lemma mem_get_next_states {m : HeatLossMap} {s : State} {minB maxB : Nat} {n : State} :
    n ∈ get_next_states m s minB maxB ↔
      ∃ t b, (t, b) ∈ next_turns s.direction ∧ candidate m s minB maxB t b = some n := by
  unfold get_next_states
  rw [List.mem_filterMap]
  constructor
  · rintro ⟨⟨t, b⟩, hmem, hc⟩
    exact ⟨t, b, hmem, hc⟩
  · rintro ⟨t, b, hmem, hc⟩
    exact ⟨(t, b), hmem, hc⟩

lemma next_turns_straight {d t : Direction} :
    (t, true) ∈ next_turns (some d) ↔ t = d := by
  cases d <;> cases t <;> decide

lemma next_turns_no_reverse {d t : Direction} {b : Bool}
    (h : (t, b) ∈ next_turns (some d)) : t ≠ d.reverse := by
  cases d <;> cases t <;> cases b <;> revert h <;> decide

lemma next_turns_turn_false {d t : Direction} {b : Bool}
    (h : (t, b) ∈ next_turns (some d)) (hne : t ≠ d) : b = false := by
  cases d <;> cases t <;> cases b <;> revert h <;> simp_all <;> decide

lemma next_turns_none_mem {t : Direction} {b : Bool} :
    (t, b) ∈ next_turns none ↔ b = true := by
  cases t <;> cases b <;> decide

lemma gns_total_le {m : HeatLossMap} {s n : State} {minB maxB : Nat}
    (h : n ∈ get_next_states m s minB maxB) :
    s.total_heat_loss ≤ n.total_heat_loss := by
  rcases mem_get_next_states.mp h with ⟨t, b, _, hc⟩
  rcases candidate_eq_some.mp hc with ⟨-, p, c, -, -, -, hn⟩
  rw [hn]
  exact Nat.le_add_right _ _

lemma gns_dd_bounds {m : HeatLossMap} {s n : State} {minB maxB : Nat}
    (h : n ∈ get_next_states m s minB maxB) :
    1 ≤ n.distance_in_current_direction ∧ n.distance_in_current_direction < maxB := by
  rcases mem_get_next_states.mp h with ⟨t, b, _, hc⟩
  rcases candidate_eq_some.mp hc with ⟨-, p, c, -, -, hcap, hn⟩
  rw [hn]
  constructor
  · dsimp only []
    split <;> omega
  · exact hcap

lemma gns_dir_some {m : HeatLossMap} {s n : State} {minB maxB : Nat}
    (h : n ∈ get_next_states m s minB maxB) :
    ∃ d, n.direction = some d := by
  rcases mem_get_next_states.mp h with ⟨t, b, _, hc⟩
  rcases candidate_eq_some.mp hc with ⟨-, p, c, -, -, -, hn⟩
  exact ⟨t, by rw [hn]⟩

lemma gns_inbounds {m : HeatLossMap} {s n : State} {minB maxB : Nat}
    (h : n ∈ get_next_states m s minB maxB) :
    n.position.x < m.width ∧ n.position.y < m.height := by
  rcases mem_get_next_states.mp h with ⟨t, b, _, hc⟩
  rcases candidate_eq_some.mp hc with ⟨-, p, c, -, hget, -, hn⟩
  rw [hn]
  exact get_some_bounds hget

lemma gns_shift {m : HeatLossMap} {p : Position} {t : Nat} {d : Option Direction} {r : Nat}
    {minB maxB : Nat} {n : State} (v : Nat)
    (h : n ∈ get_next_states m ⟨p, t, d, r⟩ minB maxB) :
    ∃ n' ∈ get_next_states m ⟨p, v, d, r⟩ minB maxB,
      n'.key = n.key ∧ n'.total_heat_loss + t = n.total_heat_loss + v := by
  rcases mem_get_next_states.mp h with ⟨turn, b, hmem, hc⟩
  rcases candidate_eq_some.mp hc with ⟨himp, q, c, hadj, hget, hcap, hn⟩
  refine ⟨⟨q, v + c, some turn,
    if (⟨p, t, d, r⟩ : State).direction = none ∨ b = true then r + 1 else 1⟩, ?_, ?_, ?_⟩
  · exact mem_get_next_states.mpr ⟨turn, b, hmem,
      candidate_eq_some.mpr ⟨himp, q, c, hadj, hget, hcap, rfl⟩⟩
  · rw [hn]; rfl
  · rw [hn]; dsimp only []; omega

lemma gns_length_le {m : HeatLossMap} {s : State} {minB maxB : Nat} :
    (get_next_states m s minB maxB).length ≤ 4 := by
  unfold get_next_states
  calc ((next_turns s.direction).filterMap _).length
      ≤ (next_turns s.direction).length := List.length_filterMap_le _ _
    _ ≤ 4 := by cases hs : s.direction with
        | none => rfl
        | some d => cases d <;> simp [next_turns]

/-! Facts about the priority-queue model. -/

lemma popMinAux_perm (b : State) (l : List State) :
    List.Perm ((popMinAux b l).1 :: (popMinAux b l).2) (b :: l) := by
  induction l generalizing b with
  | nil => simp [popMinAux]
  | cons x xs ih =>
    unfold popMinAux
    by_cases h : x.total_heat_loss < b.total_heat_loss
    · rw [if_pos h]
      dsimp only []
      exact (List.Perm.swap b (popMinAux x xs).1 (popMinAux x xs).2).trans ((ih x).cons b)
    · rw [if_neg h]
      dsimp only []
      exact ((List.Perm.swap x (popMinAux b xs).1 (popMinAux b xs).2).trans
        ((ih b).cons x)).trans (List.Perm.swap b x xs)

lemma popMinAux_min (b : State) (l : List State) :
    ∀ y ∈ b :: l, (popMinAux b l).1.total_heat_loss ≤ y.total_heat_loss := by
  induction l generalizing b with
  | nil =>
    intro y hy
    rcases List.mem_singleton.mp hy with rfl
    simp [popMinAux]
  | cons x xs ih =>
    intro y hy
    unfold popMinAux
    by_cases h : x.total_heat_loss < b.total_heat_loss
    · rw [if_pos h]
      dsimp only []
      rcases List.mem_cons.mp hy with heq | hy'
      · rw [heq]
        exact le_trans (ih x x (List.mem_cons_self _ _)) (le_of_lt h)
      · exact ih x y hy'
    · rw [if_neg h]
      dsimp only []
      rcases List.mem_cons.mp hy with heq | hy'
      · rw [heq]
        exact ih b b (List.mem_cons_self _ _)
      · rcases List.mem_cons.mp hy' with heq | hy''
        · rw [heq]
          exact le_trans (ih b b (List.mem_cons_self _ _)) (le_of_not_lt h)
        · exact ih b y (List.mem_cons_of_mem _ hy'')

lemma heapPop_eq_none {heap : List State} : heapPop heap = none ↔ heap = [] := by
  cases heap <;> simp [heapPop]

lemma heapPop_perm {heap : List State} {u : State} {h₁ : List State}
    (h : heapPop heap = some (u, h₁)) : List.Perm (u :: h₁) heap := by
  cases heap with
  | nil => cases h
  | cons x xs =>
    unfold heapPop at h
    have hp := popMinAux_perm x xs
    have h' : popMinAux x xs = (u, h₁) := Option.some.inj h
    rw [h'] at hp
    exact hp

lemma heapPop_min {heap : List State} {u : State} {h₁ : List State}
    (h : heapPop heap = some (u, h₁)) :
    ∀ y ∈ heap, u.total_heat_loss ≤ y.total_heat_loss := by
  cases heap with
  | nil => cases h
  | cons x xs =>
    unfold heapPop at h
    have h' : popMinAux x xs = (u, h₁) := Option.some.inj h
    have hm := popMinAux_min x xs
    rw [h'] at hm
    exact hm

lemma heapPop_mem {heap : List State} {u : State} {h₁ : List State}
    (h : heapPop heap = some (u, h₁)) : u ∈ heap :=
  (heapPop_perm h).mem_iff.mp (List.mem_cons_self _ _)

lemma mem_of_heapPop {heap : List State} {u : State} {h₁ : List State}
    (h : heapPop heap = some (u, h₁)) {st : State} (hst : st ∈ h₁) : st ∈ heap :=
  (heapPop_perm h).mem_iff.mp (List.mem_cons_of_mem _ hst)

lemma heapPop_length {heap : List State} {u : State} {h₁ : List State}
    (h : heapPop heap = some (u, h₁)) : heap.length = h₁.length + 1 := by
  have := (heapPop_perm h).length_eq
  simp at this
  omega

/-! Facts about the best-cost-table model. -/

lemma dlookup_cons_self {k : Key} {v : Nat} {d : List (Key × Nat)} :
    dlookup ((k, v) :: d) k = some v := by
  simp [dlookup]

lemma dlookup_cons_ne {k k' : Key} {v : Nat} {d : List (Key × Nat)} (h : k' ≠ k) :
    dlookup ((k', v) :: d) k = dlookup d k := by
  simp [dlookup, h]

/-! Rewrite rules for the relaxation loop. -/

lemma relaxAll_cons_skip {dist : List (Key × Nat)} {heap : List State} {n : State}
    {ns : List State} {v : Nat}
    (h : dlookup dist n.key = some v) (hle : v ≤ n.total_heat_loss) :
    relaxAll dist heap (n :: ns) = relaxAll dist heap ns := by
  conv_lhs => unfold relaxAll
  rw [h]
  simp [hle]

lemma relaxAll_cons_push {dist : List (Key × Nat)} {heap : List State} {n : State}
    {ns : List State}
    (h : dlookup dist n.key = none ∨ ∃ v, dlookup dist n.key = some v ∧ n.total_heat_loss < v) :
    relaxAll dist heap (n :: ns) =
      ((relaxAll ((n.key, n.total_heat_loss) :: dist) (n :: heap) ns).1,
       (relaxAll ((n.key, n.total_heat_loss) :: dist) (n :: heap) ns).2.1,
       n :: (relaxAll ((n.key, n.total_heat_loss) :: dist) (n :: heap) ns).2.2) := by
  conv_lhs => unfold relaxAll
  rcases h with h | ⟨v, h, hlt⟩
  · rw [h]
    simp
  · rw [h]
    simp [Nat.not_le_of_lt hlt]

lemma relax_decision (dist : List (Key × Nat)) (n : State) :
    (∃ v, dlookup dist n.key = some v ∧ v ≤ n.total_heat_loss) ∨
    (dlookup dist n.key = none ∨
      ∃ v, dlookup dist n.key = some v ∧ n.total_heat_loss < v) := by
  cases h : dlookup dist n.key with
  | none => exact Or.inr (Or.inl rfl)
  | some v =>
    rcases le_or_lt v n.total_heat_loss with hle | hlt
    · exact Or.inl ⟨v, rfl, hle⟩
    · exact Or.inr (Or.inr ⟨v, rfl, hlt⟩)

lemma relaxAll_mem_heap {dist : List (Key × Nat)} {heap : List State} {ns : List State}
    {st : State} (h : st ∈ (relaxAll dist heap ns).2.1) : st ∈ heap ∨ st ∈ ns := by
  induction ns generalizing dist heap with
  | nil =>
    left
    simpa [relaxAll] using h
  | cons n ns ih =>
    rcases relax_decision dist n with ⟨v, hv, hle⟩ | hp
    · rw [relaxAll_cons_skip hv hle] at h
      rcases ih h with h' | h'
      · exact Or.inl h'
      · exact Or.inr (List.mem_cons_of_mem _ h')
    · rw [relaxAll_cons_push hp] at h
      dsimp only [] at h
      rcases ih h with h' | h'
      · rcases List.mem_cons.mp h' with heq | h''
        · exact Or.inr (by rw [heq]; exact List.mem_cons_self _ _)
        · exact Or.inl h''
      · exact Or.inr (List.mem_cons_of_mem _ h')

lemma relaxAll_heap_grow {dist : List (Key × Nat)} {heap : List State} {ns : List State}
    {st : State} (h : st ∈ heap) : st ∈ (relaxAll dist heap ns).2.1 := by
  induction ns generalizing dist heap with
  | nil => simpa [relaxAll] using h
  | cons n ns ih =>
    rcases relax_decision dist n with ⟨v, hv, hle⟩ | hp
    · rw [relaxAll_cons_skip hv hle]
      exact ih h
    · rw [relaxAll_cons_push hp]
      dsimp only []
      exact ih (List.mem_cons_of_mem _ h)

lemma relaxAll_pushed_mem {dist : List (Key × Nat)} {heap : List State} {ns : List State}
    {st : State} (h : st ∈ (relaxAll dist heap ns).2.2) : st ∈ ns := by
  induction ns generalizing dist heap with
  | nil => simp [relaxAll] at h
  | cons n ns ih =>
    rcases relax_decision dist n with ⟨v, hv, hle⟩ | hp
    · rw [relaxAll_cons_skip hv hle] at h
      exact List.mem_cons_of_mem _ (ih h)
    · rw [relaxAll_cons_push hp] at h
      dsimp only [] at h
      rcases List.mem_cons.mp h with heq | h'
      · rw [heq]
        exact List.mem_cons_self _ _
      · exact List.mem_cons_of_mem _ (ih h')

lemma relaxAll_heap_length {dist : List (Key × Nat)} {heap : List State} {ns : List State} :
    (relaxAll dist heap ns).2.1.length ≤ heap.length + ns.length := by
  induction ns generalizing dist heap with
  | nil => simp [relaxAll]
  | cons n ns ih =>
    rcases relax_decision dist n with ⟨v, hv, hle⟩ | hp
    · rw [relaxAll_cons_skip hv hle]
      calc (relaxAll dist heap ns).2.1.length ≤ heap.length + ns.length := ih
        _ ≤ heap.length + (n :: ns).length := by simp [Nat.le_succ]
    · rw [relaxAll_cons_push hp]
      dsimp only []
      calc (relaxAll ((n.key, n.total_heat_loss) :: dist) (n :: heap) ns).2.1.length
          ≤ (n :: heap).length + ns.length := ih
        _ = heap.length + (n :: ns).length := by simp; omega

lemma relaxAll_dlookup_mono (heap : List State) (ns : List State)
    {dist : List (Key × Nat)} {k : Key} {v : Nat} (h : dlookup dist k = some v) :
    ∃ v', dlookup (relaxAll dist heap ns).1 k = some v' ∧ v' ≤ v := by
  induction ns generalizing dist heap v with
  | nil => exact ⟨v, by simpa [relaxAll] using h, le_refl v⟩
  | cons n ns ih =>
    rcases relax_decision dist n with ⟨w, hw, hle⟩ | hp
    · rw [relaxAll_cons_skip hw hle]
      exact ih heap h
    · rw [relaxAll_cons_push hp]
      dsimp only []
      by_cases hk : n.key = k
      · rcases hp with hp | ⟨w, hw, hlt⟩
        · rw [hk] at hp
          rw [hp] at h
          cases h
        · rw [hk] at hw
          rw [hw] at h
          have hwv : w = v := Option.some.inj h
          have hself : dlookup ((n.key, n.total_heat_loss) :: dist) k =
              some n.total_heat_loss := by
            rw [← hk]
            exact dlookup_cons_self
          rcases ih (n :: heap) hself with ⟨v', hv', hle'⟩
          exact ⟨v', hv', le_trans hle' (by omega)⟩
      · have h' : dlookup ((n.key, n.total_heat_loss) :: dist) k = some v := by
          rw [dlookup_cons_ne hk]
          exact h
        exact ih (n :: heap) h'

lemma relaxAll_relaxes {dist : List (Key × Nat)} {heap : List State} {ns : List State} :
    ∀ n ∈ ns, ∃ v, dlookup (relaxAll dist heap ns).1 n.key = some v ∧
      v ≤ n.total_heat_loss := by
  induction ns generalizing dist heap with
  | nil => intro n hn; cases hn
  | cons n ns ih =>
    intro x hx
    rcases relax_decision dist n with ⟨v, hv, hle⟩ | hp
    · rw [relaxAll_cons_skip hv hle]
      rcases List.mem_cons.mp hx with heq | hx'
      · rw [heq]
        rcases relaxAll_dlookup_mono heap ns hv with ⟨v', hv', hle'⟩
        exact ⟨v', hv', le_trans hle' hle⟩
      · exact ih x hx'
    · rw [relaxAll_cons_push hp]
      dsimp only []
      rcases List.mem_cons.mp hx with heq | hx'
      · rw [heq]
        have hself : dlookup ((n.key, n.total_heat_loss) :: dist) n.key =
            some n.total_heat_loss := dlookup_cons_self
        rcases relaxAll_dlookup_mono (n :: heap) ns hself with ⟨v', hv', hle'⟩
        exact ⟨v', hv', hle'⟩
      · exact ih x hx'

/-! Unfold rules for one iteration of the search loop. -/

lemma spLoop_succ_empty {m : HeatLossMap} {goal : Position} {minB maxB fuel : Nat}
    {dist : List (Key × Nat)} {heap : List State} (h : heapPop heap = none) :
    spLoop m goal minB maxB (fuel + 1) dist heap = (some none, [], []) := by
  conv_lhs => unfold spLoop
  rw [h]

lemma spLoop_succ_goal {m : HeatLossMap} {goal : Position} {minB maxB fuel : Nat}
    {dist : List (Key × Nat)} {heap h₁ : List State} {u : State}
    (h : heapPop heap = some (u, h₁))
    (hg : u.position = goal ∧ minB ≤ u.distance_in_current_direction) :
    spLoop m goal minB maxB (fuel + 1) dist heap =
      (some (some u.total_heat_loss), [(u, false)], []) := by
  conv_lhs => unfold spLoop
  rw [h]
  dsimp only []
  rw [if_pos hg]

lemma spLoop_succ_stale {m : HeatLossMap} {goal : Position} {minB maxB fuel : Nat}
    {dist : List (Key × Nat)} {heap h₁ : List State} {u : State}
    (h : heapPop heap = some (u, h₁))
    (hg : ¬(u.position = goal ∧ minB ≤ u.distance_in_current_direction))
    (hs : (dlookup dist u.key).getD 0 < u.total_heat_loss) :
    spLoop m goal minB maxB (fuel + 1) dist heap =
      ((spLoop m goal minB maxB fuel dist h₁).1,
       (u, true) :: (spLoop m goal minB maxB fuel dist h₁).2.1,
       (spLoop m goal minB maxB fuel dist h₁).2.2) := by
  conv_lhs => unfold spLoop
  rw [h]
  dsimp only []
  rw [if_neg hg, if_pos hs]

lemma spLoop_succ_expand {m : HeatLossMap} {goal : Position} {minB maxB fuel : Nat}
    {dist : List (Key × Nat)} {heap h₁ : List State} {u : State}
    (h : heapPop heap = some (u, h₁))
    (hg : ¬(u.position = goal ∧ minB ≤ u.distance_in_current_direction))
    (hs : ¬((dlookup dist u.key).getD 0 < u.total_heat_loss)) :
    spLoop m goal minB maxB (fuel + 1) dist heap =
      ((spLoop m goal minB maxB fuel
          (relaxAll dist h₁ (get_next_states m u minB maxB)).1
          (relaxAll dist h₁ (get_next_states m u minB maxB)).2.1).1,
       (u, false) :: (spLoop m goal minB maxB fuel
          (relaxAll dist h₁ (get_next_states m u minB maxB)).1
          (relaxAll dist h₁ (get_next_states m u minB maxB)).2.1).2.1,
       (relaxAll dist h₁ (get_next_states m u minB maxB)).2.2 ++
         (spLoop m goal minB maxB fuel
           (relaxAll dist h₁ (get_next_states m u minB maxB)).1
           (relaxAll dist h₁ (get_next_states m u minB maxB)).2.1).2.2) := by
  conv_lhs => unfold spLoop
  rw [h]
  dsimp only []
  rw [if_neg hg, if_neg hs]

/-! Monotonicity of the popped-cost trace. -/

lemma spLoop_trace_lb {m : HeatLossMap} {goal : Position} {minB maxB : Nat} (fuel : Nat) :
    ∀ (dist : List (Key × Nat)) (heap : List State) (lb : Nat),
      (∀ st ∈ heap, lb ≤ st.total_heat_loss) →
      ∀ x ∈ (spLoop m goal minB maxB fuel dist heap).2.1, lb ≤ x.1.total_heat_loss := by
  induction fuel with
  | zero =>
    intro dist heap lb hlb x hx
    cases hx
  | succ fuel ih =>
    intro dist heap lb hlb x hx
    cases hp : heapPop heap with
    | none =>
      rw [spLoop_succ_empty hp] at hx
      cases hx
    | some sh =>
      rcases sh with ⟨u, h₁⟩
      have hu : u ∈ heap := heapPop_mem hp
      by_cases hg : u.position = goal ∧ minB ≤ u.distance_in_current_direction
      · rw [spLoop_succ_goal hp hg] at hx
        rcases List.mem_singleton.mp hx with rfl
        exact hlb u hu
      · by_cases hs : (dlookup dist u.key).getD 0 < u.total_heat_loss
        · rw [spLoop_succ_stale hp hg hs] at hx
          rcases List.mem_cons.mp hx with heq | hx'
          · rw [heq]
            exact hlb u hu
          · exact ih dist h₁ lb (fun st hst => hlb st (mem_of_heapPop hp hst)) x hx'
        · rw [spLoop_succ_expand hp hg hs] at hx
          rcases List.mem_cons.mp hx with heq | hx'
          · rw [heq]
            exact hlb u hu
          · refine ih _ _ lb ?_ x hx'
            intro st hst
            rcases relaxAll_mem_heap hst with hst' | hst'
            · exact hlb st (mem_of_heapPop hp hst')
            · exact le_trans (hlb u hu) (gns_total_le hst')

lemma spLoop_trace_pairwise {m : HeatLossMap} {goal : Position} {minB maxB : Nat}
    (fuel : Nat) :
    ∀ (dist : List (Key × Nat)) (heap : List State),
      List.Pairwise (fun a b => a.1.total_heat_loss ≤ b.1.total_heat_loss)
        (spLoop m goal minB maxB fuel dist heap).2.1 := by
  induction fuel with
  | zero =>
    intro dist heap
    exact List.Pairwise.nil
  | succ fuel ih =>
    intro dist heap
    cases hp : heapPop heap with
    | none =>
      rw [spLoop_succ_empty hp]
      exact List.Pairwise.nil
    | some sh =>
      rcases sh with ⟨u, h₁⟩
      have hmin : ∀ st ∈ h₁, u.total_heat_loss ≤ st.total_heat_loss :=
        fun st hst => heapPop_min hp st (mem_of_heapPop hp hst)
      by_cases hg : u.position = goal ∧ minB ≤ u.distance_in_current_direction
      · rw [spLoop_succ_goal hp hg]
        exact List.pairwise_singleton _ _
      · by_cases hs : (dlookup dist u.key).getD 0 < u.total_heat_loss
        · rw [spLoop_succ_stale hp hg hs]
          refine List.Pairwise.cons ?_ (ih dist h₁)
          intro x hx
          exact spLoop_trace_lb fuel dist h₁ u.total_heat_loss hmin x hx
        · rw [spLoop_succ_expand hp hg hs]
          refine List.Pairwise.cons ?_ (ih _ _)
          intro x hx
          refine spLoop_trace_lb fuel _ _ u.total_heat_loss ?_ x hx
          intro st hst
          rcases relaxAll_mem_heap hst with hst' | hst'
          · exact hmin st hst'
          · exact gns_total_le hst'

lemma spLoop_pushed_dd {m : HeatLossMap} {goal : Position} {minB maxB : Nat} (fuel : Nat) :
    ∀ (dist : List (Key × Nat)) (heap : List State),
      ∀ n ∈ (spLoop m goal minB maxB fuel dist heap).2.2,
        1 ≤ n.distance_in_current_direction ∧ n.distance_in_current_direction < maxB := by
  induction fuel with
  | zero =>
    intro dist heap n hn
    cases hn
  | succ fuel ih =>
    intro dist heap n hn
    cases hp : heapPop heap with
    | none =>
      rw [spLoop_succ_empty hp] at hn
      cases hn
    | some sh =>
      rcases sh with ⟨u, h₁⟩
      by_cases hg : u.position = goal ∧ minB ≤ u.distance_in_current_direction
      · rw [spLoop_succ_goal hp hg] at hn
        cases hn
      · by_cases hs : (dlookup dist u.key).getD 0 < u.total_heat_loss
        · rw [spLoop_succ_stale hp hg hs] at hn
          exact ih dist h₁ n hn
        · rw [spLoop_succ_expand hp hg hs] at hn
          rcases List.mem_append.mp hn with hn' | hn'
          · exact gns_dd_bounds (relaxAll_pushed_mem hn')
          · exact ih _ _ n hn'

lemma next_turns_self_straight {d : Direction} {b : Bool}
    (h : (d, b) ∈ next_turns (some d)) : b = true := by
  cases d <;> cases b <;> revert h <;> decide

/-! Claim theorems. -/

/-- Claim C2 (corrected): from a state with an established direction `d` and
run length `r`, `get_next_states` offers continuing straight in `d` exactly
when `r + 1 < max_blocks_straight` (the code rejects a successor whose new
run length reaches the cap) and the cell one step further in `d` is in
bounds; the successor then has direction `d`, run length `r + 1` and position
one step ahead, so the run length reaches at most `max_blocks_straight - 1`. -/
theorem straight_continuation_iff (m : HeatLossMap) (s : State) (minB maxB : Nat)
    (d : Direction) (h : s.direction = some d) :
    ((∃ n ∈ get_next_states m s minB maxB, n.direction = some d) ↔
      (s.distance_in_current_direction + 1 < maxB ∧
        ∃ p c, get_adjacent_position s.position d = some p ∧ m.get p = some c)) ∧
    (∀ n ∈ get_next_states m s minB maxB, n.direction = some d →
      n.distance_in_current_direction = s.distance_in_current_direction + 1 ∧
      get_adjacent_position s.position d = some n.position) := by
  constructor
  · constructor
    · rintro ⟨n, hn, hdir⟩
      rcases mem_get_next_states.mp hn with ⟨t, b, hmem, hc⟩
      rcases candidate_eq_some.mp hc with ⟨himp, p, c, hadj, hget, hcap, hneq⟩
      have ht : t = d := by
        rw [hneq] at hdir
        exact Option.some.inj hdir
      rw [ht] at hmem hadj
      have hb : b = true := next_turns_self_straight (h ▸ hmem)
      rw [hb] at hcap
      simp at hcap
      exact ⟨hcap, p, c, hadj, hget⟩
    · rintro ⟨hcap, p, c, hadj, hget⟩
      have hcand : candidate m s minB maxB d true =
          some ⟨p, s.total_heat_loss + c, some d, s.distance_in_current_direction + 1⟩ := by
        rw [candidate_eq_some]
        constructor
        · intro hb
          cases hb
        · refine ⟨p, c, hadj, hget, ?_, ?_⟩
          · simpa using hcap
          · simp
      have hmem : (d, true) ∈ next_turns s.direction := by
        rw [h]
        exact next_turns_straight.mpr rfl
      exact ⟨⟨p, s.total_heat_loss + c, some d, s.distance_in_current_direction + 1⟩,
        mem_get_next_states.mpr ⟨d, true, hmem, hcand⟩, rfl⟩
  · intro n hn hdir
    rcases mem_get_next_states.mp hn with ⟨t, b, hmem, hc⟩
    rcases candidate_eq_some.mp hc with ⟨himp, p, c, hadj, hget, hcap, hneq⟩
    have ht : t = d := by
      rw [hneq] at hdir
      exact Option.some.inj hdir
    rw [ht] at hmem hadj
    have hb : b = true := next_turns_self_straight (h ▸ hmem)
    rw [hneq, hb]
    simp
    exact hadj

/-- Claim C2, counterexample to the claim as stated: with
`max_blocks_straight = 2`, a state travelling Right with run length 1
satisfies `r < max_run` and has its straight-ahead cell in bounds, yet the
code offers no successor at all (the new run length 2 would reach the cap). -/
theorem straight_at_cap_cex :
    (1 : Nat) < 2 ∧ mapRow.get ⟨0, 2⟩ = some 1 ∧
    get_next_states mapRow ⟨⟨0, 1⟩, 0, some Direction.Right, 1⟩ 0 2 = [] := by
  decide

/-- Witness for `straight_continuation_iff` at a concrete input. -/
theorem straight_continuation_iff_witness :
    ∃ n ∈ get_next_states mapRow ⟨⟨0, 1⟩, 0, some Direction.Right, 1⟩ 0 3,
      n.direction = some Direction.Right :=
  (straight_continuation_iff mapRow ⟨⟨0, 1⟩, 0, some Direction.Right, 1⟩ 0 3
    Direction.Right rfl).1.mpr ⟨by decide, ⟨0, 2⟩, 1, by decide, by decide⟩

/-- Claim C3: on the 3×3 all-cost-1 grid with start (0,0), goal (2,2),
`min_run = 0` and `max_run = 3`, `shortest_path` returns `Some 4`. -/
theorem scenarioA_three_by_three :
    shortest_path map3 ⟨0, 0⟩ ⟨2, 2⟩ 0 3 = some 4 := by
  rfl

/-- Claim C4 (corrected): with an established direction the reverse direction
is never offered, and a perpendicular turn is offered only when the run
length has reached `min_blocks_straight`; from the start state every
direction whose adjacent cell is in bounds is offered with run length 1,
ungated by the minimum-run constraint, provided `1 < max_blocks_straight`
(the cap check also applies to the very first move). -/
theorem turn_rules (m : HeatLossMap) (minB maxB : Nat) :
    (∀ (s : State) (d : Direction), s.direction = some d →
      ∀ n ∈ get_next_states m s minB maxB, n.direction ≠ some d.reverse) ∧
    (∀ (s : State) (d : Direction), s.direction = some d →
      ∀ n ∈ get_next_states m s minB maxB, n.direction ≠ some d →
        minB ≤ s.distance_in_current_direction) ∧
    (∀ (start : Position) (d : Direction),
      ((∃ n ∈ get_next_states m (initState start) minB maxB, n.direction = some d) ↔
        (1 < maxB ∧ ∃ p c, get_adjacent_position start d = some p ∧ m.get p = some c)) ∧
      (∀ n ∈ get_next_states m (initState start) minB maxB,
        n.distance_in_current_direction = 1)) := by
  refine ⟨?_, ?_, ?_⟩
  · intro s d hsd n hn hdir
    rcases mem_get_next_states.mp hn with ⟨t, b, hmem, hc⟩
    rcases candidate_eq_some.mp hc with ⟨-, p, c, -, -, -, hneq⟩
    rw [hneq] at hdir
    exact next_turns_no_reverse (hsd ▸ hmem) (Option.some.inj hdir)
  · intro s d hsd n hn hdir
    rcases mem_get_next_states.mp hn with ⟨t, b, hmem, hc⟩
    rcases candidate_eq_some.mp hc with ⟨himp, p, c, -, -, -, hneq⟩
    have ht : t ≠ d := by
      intro hteq
      rw [hneq] at hdir
      rw [hteq] at hdir
      exact hdir rfl
    exact himp (next_turns_turn_false (hsd ▸ hmem) ht)
  · intro start d
    constructor
    · constructor
      · rintro ⟨n, hn, hdir⟩
        rcases mem_get_next_states.mp hn with ⟨t, b, hmem, hc⟩
        rcases candidate_eq_some.mp hc with ⟨-, p, c, hadj, hget, hcap, hneq⟩
        have ht : t = d := by
          rw [hneq] at hdir
          exact Option.some.inj hdir
        rw [ht] at hadj
        simp [initState] at hcap
        exact ⟨hcap, p, c, hadj, hget⟩
      · rintro ⟨hcap, p, c, hadj, hget⟩
        have hmem : (d, true) ∈ next_turns (initState start).direction :=
          next_turns_none_mem.mpr rfl
        have hcand : candidate m (initState start) minB maxB d true =
            some ⟨p, 0 + c, some d, 1⟩ := by
          rw [candidate_eq_some]
          constructor
          · intro hb
            cases hb
          · refine ⟨p, c, hadj, hget, ?_, ?_⟩
            · simpa [initState] using hcap
            · simp [initState]
        exact ⟨⟨p, 0 + c, some d, 1⟩,
          mem_get_next_states.mpr ⟨d, true, hmem, hcand⟩, rfl⟩
    · intro n hn
      rcases mem_get_next_states.mp hn with ⟨t, b, hmem, hc⟩
      rcases candidate_eq_some.mp hc with ⟨-, p, c, -, -, -, hneq⟩
      rw [hneq]
      simp [initState]

/-- Claim C4, counterexample to the claim as stated: with
`max_blocks_straight = 1` the start state's rightward neighbour is in bounds,
yet no first move at all is offered (run length 1 would reach the cap). -/
theorem first_move_blocked_cex :
    map3.get ⟨0, 1⟩ = some 1 ∧ get_next_states map3 (initState ⟨0, 0⟩) 0 1 = [] := by
  decide

/-- Witness for `turn_rules` at concrete inputs. -/
theorem turn_rules_witness :
    (∀ n ∈ get_next_states mapRow ⟨⟨0, 1⟩, 0, some Direction.Right, 1⟩ 0 3,
      n.direction ≠ some Direction.Left) ∧
    (∃ n ∈ get_next_states map3 (initState ⟨0, 0⟩) 0 4, n.direction = some Direction.Down) :=
  ⟨(turn_rules mapRow 0 3).1 ⟨⟨0, 1⟩, 0, some Direction.Right, 1⟩ Direction.Right rfl,
   ((turn_rules map3 0 4).2.2 ⟨0, 0⟩ Direction.Down).1.mpr
     ⟨by decide, ⟨1, 0⟩, 1, by decide, by decide⟩⟩

/-- Claim C6 (code bug): the constructor neither reports an error on empty
input nor on ragged rows: on the empty string it panics
(`rows.first().unwrap()`, modelled as the outer `none`), and on the ragged
input "1\n22" it silently returns a map. -/
theorem from_str_failure_modes :
    from_str [] = none ∧
    from_str ['1', Char.ofNat 10, '2', '2'] = some (Except.ok ⟨[1, 2, 2], 1, 2⟩) := by
  constructor
  · rfl
  · rfl

/-- Claim C8: when start and goal coincide and `min_run = 0`, the very first
pop satisfies the goal check and `shortest_path` returns `Some 0` without any
movement; stated for any in-bounds start position as the spec does. -/
theorem shortest_path_start_eq_goal (m : HeatLossMap) (p : Position) (maxB : Nat)
    (_inbounds : p.x < m.width ∧ p.y < m.height) :
    shortest_path m p p 0 maxB = some 0 := by
  have hf : spFuel m p maxB = (4 * (keyList m p maxB).length + 1) + 1 := rfl
  simp [shortest_path, spRun, hf, spLoop, heapPop, popMinAux, initState]

/-- Witness for `shortest_path_start_eq_goal` on the single-cell grid. -/
theorem shortest_path_start_eq_goal_witness :
    shortest_path map1 ⟨0, 0⟩ ⟨0, 0⟩ 0 1 = some 0 :=
  shortest_path_start_eq_goal map1 ⟨0, 0⟩ 1 (by decide)

/-- Claim C9: in any run of `shortest_path`, the costs of the popped states
that are not discarded as stale form a non-decreasing sequence (the full pop
sequence is even non-decreasing). -/
theorem popped_costs_monotone (m : HeatLossMap) (start goal : Position) (minB maxB : Nat) :
    List.Pairwise (fun a b => a ≤ b)
      (((spRun m start goal minB maxB).2.1.filter (fun x => !x.2)).map
        (fun x => x.1.total_heat_loss)) := by
  have hfull := @spLoop_trace_pairwise m goal minB maxB (spFuel m start maxB)
    [((initState start).key, 0)] [initState start]
  exact List.pairwise_map.mpr ((hfull.filter _).imp (fun hab => hab))

/-- Claim C10: every successor built by `get_next_states` has run length
between 1 and `max_blocks_straight - 1` inclusive, and consequently every
state pushed onto the queue during a run of `shortest_path` (equivalently,
inserted into the best-cost table, the initial state apart — the loop inserts
exactly the states it pushes) has run length strictly below
`max_blocks_straight`. -/
theorem next_state_run_bounds (m : HeatLossMap) (start goal : Position) (minB maxB : Nat) :
    (∀ s : State, ∀ n ∈ get_next_states m s minB maxB,
      1 ≤ n.distance_in_current_direction ∧ n.distance_in_current_direction ≤ maxB - 1) ∧
    (∀ n ∈ (spRun m start goal minB maxB).2.2,
      1 ≤ n.distance_in_current_direction ∧ n.distance_in_current_direction < maxB) := by
  constructor
  · intro s n hn
    have := gns_dd_bounds hn
    omega
  · intro n hn
    exact spLoop_pushed_dd (spFuel m start maxB) _ _ n hn

/-- Witness for `next_state_run_bounds` at concrete inputs. -/
theorem next_state_run_bounds_witness :
    (1 ≤ (2 : Nat) ∧ (2 : Nat) ≤ 3 - 1) ∧ (1 ≤ (1 : Nat) ∧ (1 : Nat) < 2) :=
  ⟨(next_state_run_bounds mapRow ⟨0, 0⟩ ⟨0, 4⟩ 0 3).1
      ⟨⟨0, 1⟩, 0, some Direction.Right, 1⟩
      ⟨⟨0, 2⟩, 1, some Direction.Right, 2⟩ (by decide),
   (next_state_run_bounds map12 ⟨0, 0⟩ ⟨0, 1⟩ 0 2).2
      ⟨⟨0, 1⟩, 1, some Direction.Right, 1⟩ (by decide)⟩

/-! The master invariant of the search loop, used for soundness, optimality,
completeness and termination. -/

lemma mem_keyList_valid {m : HeatLossMap} {start : Position} {maxB : Nat} {k : Key}
    (hx : k.position.x < m.width) (hy : k.position.y < m.height)
    (hd : ∃ d, k.direction = some d) (hdd : k.distance_in_current_direction < maxB) :
    k ∈ keyList m start maxB := by
  rcases hd with ⟨d, hd⟩
  unfold keyList
  refine List.mem_cons_of_mem _ ?_
  rw [List.mem_flatMap]
  refine ⟨k.position.y, List.mem_range.mpr hy, ?_⟩
  rw [List.mem_flatMap]
  refine ⟨k.position.x, List.mem_range.mpr hx, ?_⟩
  rw [List.mem_flatMap]
  refine ⟨d, by cases d <;> simp, ?_⟩
  rw [List.mem_map]
  refine ⟨k.distance_in_current_direction, List.mem_range.mpr hdd, ?_⟩
  rcases k with ⟨⟨ky, kx⟩, kd, kdd⟩
  simp only [] at hd
  rw [hd]

/-- Invariant carried by the relaxation step: `S'` is the set of expanded
keys, `lb` the cost of the state being expanded. -/
structure RelaxInv (m : HeatLossMap) (start : Position) (minB maxB : Nat)
    (S' : List Key) (lb : Nat)
    (dist : List (Key × Nat)) (heap : List State) : Prop where
  hkeys : ∀ st ∈ heap, st.key ∈ keyList m start maxB
  hdist : ∀ st ∈ heap, ∃ v, dlookup dist st.key = some v ∧ v ≤ st.total_heat_loss
  sfrozen : ∀ k ∈ S', ∀ st ∈ heap, st.key = k →
    ∀ v, dlookup dist k = some v → v < st.total_heat_loss
  sboundlb : ∀ k ∈ S', ∀ v, dlookup dist k = some v → v ≤ lb
  slow : ∀ k ∈ S', ∀ v, dlookup dist k = some v →
    ∀ st ∈ heap, v ≤ st.total_heat_loss
  sdom : ∀ k ∈ S', ∃ v, dlookup dist k = some v
  huniq : heap.Pairwise (fun a b => a.key = b.key → a.total_heat_loss ≠ b.total_heat_loss)
  live : ∀ k v, dlookup dist k = some v →
    k ∈ S' ∨ ∃ st ∈ heap, st.key = k ∧ st.total_heat_loss = v
  hreach : ∀ st ∈ heap, ReachesFrom m start minB maxB st

lemma relaxAll_RelaxInv {m : HeatLossMap} {start : Position} {minB maxB : Nat}
    {S' : List Key} {lb : Nat} :
    ∀ (ns : List State) (dist : List (Key × Nat)) (heap : List State),
    RelaxInv m start minB maxB S' lb dist heap →
    (∀ n ∈ ns, lb ≤ n.total_heat_loss) →
    (∀ n ∈ ns, n.key ∈ keyList m start maxB) →
    (∀ n ∈ ns, ReachesFrom m start minB maxB n) →
    RelaxInv m start minB maxB S' lb
      (relaxAll dist heap ns).1 (relaxAll dist heap ns).2.1 ∧
    (∀ k ∈ S', dlookup (relaxAll dist heap ns).1 k = dlookup dist k) := by
  intro ns
  induction ns with
  | nil =>
    intro dist heap hri hN1 hN2 hN3
    simp only [relaxAll]
    exact ⟨hri, fun k hk => by trivial⟩
  | cons n ns ih =>
    intro dist heap hri hN1 hN2 hN3
    have hN1t : ∀ x ∈ ns, lb ≤ x.total_heat_loss :=
      fun x hx => hN1 x (List.mem_cons_of_mem _ hx)
    have hN2t : ∀ x ∈ ns, x.key ∈ keyList m start maxB :=
      fun x hx => hN2 x (List.mem_cons_of_mem _ hx)
    have hN3t : ∀ x ∈ ns, ReachesFrom m start minB maxB x :=
      fun x hx => hN3 x (List.mem_cons_of_mem _ hx)
    rcases relax_decision dist n with ⟨w, hw, hle⟩ | hp
    · rw [relaxAll_cons_skip hw hle]
      exact ih dist heap hri hN1t hN2t hN3t
    · rw [relaxAll_cons_push hp]
      dsimp only []
      have hkn : n.key ∉ S' := by
        intro hmem
        rcases hri.sdom n.key hmem with ⟨v, hv⟩
        have hvlb : v ≤ lb := hri.sboundlb n.key hmem v hv
        have hlen : lb ≤ n.total_heat_loss := hN1 n (List.mem_cons_self _ _)
        rcases hp with hp | ⟨w, hw, hlt⟩
        · rw [hp] at hv
          cases hv
        · rw [hw] at hv
          have heq : w = v := Option.some.inj hv
          omega
      have hheadlt : ∀ st ∈ heap, n.key = st.key →
          n.total_heat_loss < st.total_heat_loss := by
        intro st hst hk
        rcases hri.hdist st hst with ⟨w', hw', hwle⟩
        rcases hp with hp | ⟨w, hw, hlt⟩
        · rw [hk] at hp
          rw [hp] at hw'
          cases hw'
        · rw [hk] at hw
          rw [hw] at hw'
          have heq : w = w' := Option.some.inj hw'
          omega
      have hri' : RelaxInv m start minB maxB S' lb
          ((n.key, n.total_heat_loss) :: dist) (n :: heap) := by
        refine ⟨?_, ?_, ?_, ?_, ?_, ?_, ?_, ?_, ?_⟩
        · intro st hst
          rcases List.mem_cons.mp hst with heq | hst'
          · rw [heq]
            exact hN2 n (List.mem_cons_self _ _)
          · exact hri.hkeys st hst'
        · intro st hst
          rcases List.mem_cons.mp hst with heq | hst'
          · rw [heq]
            exact ⟨n.total_heat_loss, dlookup_cons_self, le_refl _⟩
          · by_cases hk : n.key = st.key
            · rw [← hk, dlookup_cons_self]
              exact ⟨n.total_heat_loss, rfl, le_of_lt (hheadlt st hst' hk)⟩
            · rw [dlookup_cons_ne hk]
              exact hri.hdist st hst'
        · intro k hk st hst hstk v hv
          have hkne : n.key ≠ k := fun he => hkn (he ▸ hk)
          rw [dlookup_cons_ne hkne] at hv
          rcases List.mem_cons.mp hst with heq | hst'
          · exact absurd hk (by rw [← hstk, heq]; exact hkn)
          · exact hri.sfrozen k hk st hst' hstk v hv
        · intro k hk v hv
          have hkne : n.key ≠ k := fun he => hkn (he ▸ hk)
          rw [dlookup_cons_ne hkne] at hv
          exact hri.sboundlb k hk v hv
        · intro k hk v hv st hst
          have hkne : n.key ≠ k := fun he => hkn (he ▸ hk)
          rw [dlookup_cons_ne hkne] at hv
          rcases List.mem_cons.mp hst with heq | hst'
          · rw [heq]
            exact le_trans (hri.sboundlb k hk v hv) (hN1 n (List.mem_cons_self _ _))
          · exact hri.slow k hk v hv st hst'
        · intro k hk
          have hkne : n.key ≠ k := fun he => hkn (he ▸ hk)
          rcases hri.sdom k hk with ⟨v, hv⟩
          exact ⟨v, by rw [dlookup_cons_ne hkne]; exact hv⟩
        · refine List.Pairwise.cons ?_ hri.huniq
          intro st hst hk
          exact Nat.ne_of_lt (hheadlt st hst hk)
        · intro k v hv
          by_cases hk : n.key = k
          · rw [← hk, dlookup_cons_self] at hv
            have heq : n.total_heat_loss = v := Option.some.inj hv
            exact Or.inr ⟨n, List.mem_cons_self _ _, hk, heq⟩
          · rw [dlookup_cons_ne hk] at hv
            rcases hri.live k v hv with hS | ⟨st, hst, hstk, hstt⟩
            · exact Or.inl hS
            · exact Or.inr ⟨st, List.mem_cons_of_mem _ hst, hstk, hstt⟩
        · intro st hst
          rcases List.mem_cons.mp hst with heq | hst'
          · rw [heq]
            exact hN3 n (List.mem_cons_self _ _)
          · exact hri.hreach st hst'
      rcases ih ((n.key, n.total_heat_loss) :: dist) (n :: heap) hri' hN1t hN2t hN3t with
        ⟨hfin, heq⟩
      refine ⟨hfin, ?_⟩
      intro k hk
      have hkne : n.key ≠ k := fun he => hkn (he ▸ hk)
      rw [heq k hk, dlookup_cons_ne hkne]

/-- Symmetry of the per-key cost-distinctness relation on queue entries. -/
lemma keytot_symm :
    Symmetric (fun a b : State =>
      a.key = b.key → a.total_heat_loss ≠ b.total_heat_loss) :=
  fun _ _ hab hk => (hab hk.symm).symm

lemma pop_pairwise {heap h₁ : List State} {u : State}
    (hp : heapPop heap = some (u, h₁))
    (h : heap.Pairwise (fun a b => a.key = b.key → a.total_heat_loss ≠ b.total_heat_loss)) :
    (u :: h₁).Pairwise (fun a b => a.key = b.key → a.total_heat_loss ≠ b.total_heat_loss) := by
  refine ((heapPop_perm hp).pairwise_iff ?_).mpr h
  intro a b hab hk
  exact (hab hk.symm).symm

/-- Full invariant of the search loop.  `S` is the list of keys already
expanded (popped non-stale); `dist` and `heap` are the best-cost table and
the queue. -/
structure Inv (m : HeatLossMap) (start goal : Position) (minB maxB : Nat)
    (dist : List (Key × Nat)) (heap : List State) (S : List Key) : Prop where
  snodup : S.Nodup
  skeys : ∀ k ∈ S, k ∈ keyList m start maxB
  hkeys : ∀ st ∈ heap, st.key ∈ keyList m start maxB
  hdist : ∀ st ∈ heap, ∃ v, dlookup dist st.key = some v ∧ v ≤ st.total_heat_loss
  sfrozen : ∀ k ∈ S, ∀ st ∈ heap, st.key = k →
    ∀ v, dlookup dist k = some v → v < st.total_heat_loss
  slow : ∀ k ∈ S, ∀ v, dlookup dist k = some v →
    ∀ st ∈ heap, v ≤ st.total_heat_loss
  sdom : ∀ k ∈ S, ∃ v, dlookup dist k = some v
  huniq : heap.Pairwise (fun a b => a.key = b.key → a.total_heat_loss ≠ b.total_heat_loss)
  live : ∀ k v, dlookup dist k = some v →
    k ∈ S ∨ ∃ st ∈ heap, st.key = k ∧ st.total_heat_loss = v
  relaxed : ∀ k ∈ S, ∀ v, dlookup dist k = some v →
    ∀ n ∈ get_next_states m (k.toState v) minB maxB,
      ∃ v', dlookup dist n.key = some v' ∧ v' ≤ n.total_heat_loss
  nogoal : ∀ k ∈ S, ¬GoalKey goal minB k
  hreach : ∀ st ∈ heap, ReachesFrom m start minB maxB st
  izero : ∃ v, dlookup dist (initState start).key = some v ∧ v ≤ 0

lemma inv_stale {m : HeatLossMap} {start goal : Position} {minB maxB : Nat}
    {dist : List (Key × Nat)} {heap h₁ : List State} {S : List Key} {u : State}
    (hinv : Inv m start goal minB maxB dist heap S)
    (hp : heapPop heap = some (u, h₁))
    (hs : (dlookup dist u.key).getD 0 < u.total_heat_loss) :
    Inv m start goal minB maxB dist h₁ S := by
  have hsub : ∀ st ∈ h₁, st ∈ heap := fun st hst => mem_of_heapPop hp hst
  refine ⟨hinv.snodup, hinv.skeys, ?_, ?_, ?_, ?_, hinv.sdom, ?_, ?_, hinv.relaxed,
    hinv.nogoal, ?_, hinv.izero⟩
  · exact fun st hst => hinv.hkeys st (hsub st hst)
  · exact fun st hst => hinv.hdist st (hsub st hst)
  · exact fun k hk st hst hstk v hv => hinv.sfrozen k hk st (hsub st hst) hstk v hv
  · exact fun k hk v hv st hst => hinv.slow k hk v hv st (hsub st hst)
  · exact (List.pairwise_cons.mp (pop_pairwise hp hinv.huniq)).2
  · intro k v hv
    rcases hinv.live k v hv with hS | ⟨st, hst, hstk, hstt⟩
    · exact Or.inl hS
    · have hst' : st ∈ u :: h₁ := (heapPop_perm hp).mem_iff.mpr hst
      rcases List.mem_cons.mp hst' with heq | hst''
      · exfalso
        rw [heq] at hstk hstt
        have hvv : dlookup dist u.key = some v := by
          rw [hstk]
          exact hv
        rw [hvv] at hs
        simp only [Option.getD_some] at hs
        omega
      · exact Or.inr ⟨st, hst'', hstk, hstt⟩
  · exact fun st hst => hinv.hreach st (hsub st hst)

lemma inv_expand {m : HeatLossMap} {start goal : Position} {minB maxB : Nat}
    {dist : List (Key × Nat)} {heap h₁ : List State} {S : List Key} {u : State}
    (hinv : Inv m start goal minB maxB dist heap S)
    (hp : heapPop heap = some (u, h₁))
    (hg : ¬(u.position = goal ∧ minB ≤ u.distance_in_current_direction))
    (hs : ¬((dlookup dist u.key).getD 0 < u.total_heat_loss)) :
    u.key ∉ S ∧
    Inv m start goal minB maxB
      (relaxAll dist h₁ (get_next_states m u minB maxB)).1
      (relaxAll dist h₁ (get_next_states m u minB maxB)).2.1
      (u.key :: S) := by
  have hu : u ∈ heap := heapPop_mem hp
  have hsub : ∀ st ∈ h₁, st ∈ heap := fun st hst => mem_of_heapPop hp hst
  rcases hinv.hdist u hu with ⟨v, hv, hvle⟩
  have hvu : dlookup dist u.key = some u.total_heat_loss := by
    rw [hv] at hs ⊢
    simp only [Option.getD_some] at hs
    have : v = u.total_heat_loss := by omega
    rw [this]
  have huS : u.key ∉ S := by
    intro hmem
    exact absurd (hinv.sfrozen u.key hmem u hu rfl u.total_heat_loss hvu) (lt_irrefl _)
  have hmin : ∀ st ∈ heap, u.total_heat_loss ≤ st.total_heat_loss := heapPop_min hp
  have hpair := pop_pairwise hp hinv.huniq
  have hhead : ∀ st ∈ h₁, u.key = st.key → u.total_heat_loss ≠ st.total_heat_loss :=
    (List.pairwise_cons.mp hpair).1
  have hri : RelaxInv m start minB maxB (u.key :: S) u.total_heat_loss dist h₁ := by
    refine ⟨?_, ?_, ?_, ?_, ?_, ?_, ?_, ?_, ?_⟩
    · exact fun st hst => hinv.hkeys st (hsub st hst)
    · exact fun st hst => hinv.hdist st (hsub st hst)
    · intro k hk st hst hstk v' hv'
      rcases List.mem_cons.mp hk with heq | hS
      · rw [heq] at hv'
        rw [hvu] at hv'
        have hveq : u.total_heat_loss = v' := Option.some.inj hv'
        have hle := hmin st (hsub st hst)
        have hne := hhead st hst (by rw [hstk, heq])
        omega
      · exact hinv.sfrozen k hS st (hsub st hst) hstk v' hv'
    · intro k hk v' hv'
      rcases List.mem_cons.mp hk with heq | hS
      · rw [heq, hvu] at hv'
        have := Option.some.inj hv'
        omega
      · exact hinv.slow k hS v' hv' u hu
    · intro k hk v' hv' st hst
      rcases List.mem_cons.mp hk with heq | hS
      · rw [heq, hvu] at hv'
        have := Option.some.inj hv'
        have hle := hmin st (hsub st hst)
        omega
      · exact hinv.slow k hS v' hv' st (hsub st hst)
    · intro k hk
      rcases List.mem_cons.mp hk with heq | hS
      · exact ⟨u.total_heat_loss, by rw [heq]; exact hvu⟩
      · exact hinv.sdom k hS
    · exact (List.pairwise_cons.mp hpair).2
    · intro k v' hv'
      rcases hinv.live k v' hv' with hS | ⟨st, hst, hstk, hstt⟩
      · exact Or.inl (List.mem_cons_of_mem _ hS)
      · have hst' : st ∈ u :: h₁ := (heapPop_perm hp).mem_iff.mpr hst
        rcases List.mem_cons.mp hst' with heq | hst''
        · refine Or.inl ?_
          rw [← hstk, heq]
          exact List.mem_cons_self _ _
        · exact Or.inr ⟨st, hst'', hstk, hstt⟩
    · exact fun st hst => hinv.hreach st (hsub st hst)
  have hN1 : ∀ n ∈ get_next_states m u minB maxB,
      u.total_heat_loss ≤ n.total_heat_loss := fun n hn => gns_total_le hn
  have hN2 : ∀ n ∈ get_next_states m u minB maxB, n.key ∈ keyList m start maxB := by
    intro n hn
    exact mem_keyList_valid (gns_inbounds hn).1 (gns_inbounds hn).2
      (gns_dir_some hn) (gns_dd_bounds hn).2
  have hN3 : ∀ n ∈ get_next_states m u minB maxB,
      ReachesFrom m start minB maxB n :=
    fun n hn => Relation.ReflTransGen.tail (hinv.hreach u hu) hn
  rcases relaxAll_RelaxInv (get_next_states m u minB maxB) dist h₁ hri hN1 hN2 hN3 with
    ⟨hfin, hM2⟩
  refine ⟨huS, ?_⟩
  refine ⟨List.nodup_cons.mpr ⟨huS, hinv.snodup⟩, ?_, hfin.hkeys, hfin.hdist,
    hfin.sfrozen, hfin.slow, hfin.sdom, hfin.huniq, hfin.live, ?_, ?_, hfin.hreach, ?_⟩
  · intro k hk
    rcases List.mem_cons.mp hk with heq | hS
    · rw [heq]
      exact hinv.hkeys u hu
    · exact hinv.skeys k hS
  · intro k hk v' hv' n hn
    rw [hM2 k hk] at hv'
    rcases List.mem_cons.mp hk with heq | hS
    · rw [heq, hvu] at hv'
      have hveq : u.total_heat_loss = v' := Option.some.inj hv'
      have hn' : n ∈ get_next_states m u minB maxB := by
        rw [heq, ← hveq] at hn
        exact hn
      exact relaxAll_relaxes n hn'
    · rcases hinv.relaxed k hS v' hv' n hn with ⟨w, hw, hwle⟩
      rcases relaxAll_dlookup_mono h₁ (get_next_states m u minB maxB) hw with
        ⟨w', hw', hwle'⟩
      exact ⟨w', hw', le_trans hwle' hwle⟩
  · intro k hk
    rcases List.mem_cons.mp hk with heq | hS
    · rw [heq]
      intro hgk
      exact hg ⟨hgk.1, hgk.2⟩
    · exact hinv.nogoal k hS
  · rcases hinv.izero with ⟨v0, hv0, h0⟩
    rcases relaxAll_dlookup_mono h₁ (get_next_states m u minB maxB) hv0 with
      ⟨v0', hv0', hle0⟩
    exact ⟨v0', hv0', le_trans hle0 h0⟩

/-- Frontier property: along any legal path, either some queue entry
undercuts the path cost, or the path's endpoint key is already expanded with
a recorded cost at most the path cost. -/
lemma frontier {m : HeatLossMap} {start goal : Position} {minB maxB : Nat}
    {dist : List (Key × Nat)} {heap : List State} {S : List Key}
    (hinv : Inv m start goal minB maxB dist heap S) :
    ∀ z, ReachesFrom m start minB maxB z →
      (∃ st ∈ heap, st.total_heat_loss ≤ z.total_heat_loss) ∨
      (z.key ∈ S ∧ ∃ v, dlookup dist z.key = some v ∧ v ≤ z.total_heat_loss) := by
  intro z hz
  unfold ReachesFrom at hz
  induction hz with
  | refl =>
    rcases hinv.izero with ⟨v, hv, hle⟩
    rcases hinv.live (initState start).key v hv with hS | ⟨st, hst, hstk, hstt⟩
    · exact Or.inr ⟨hS, v, hv, hle⟩
    · refine Or.inl ⟨st, hst, ?_⟩
      rw [hstt]
      exact hle
  | @tail b c hab hbc ih =>
    rcases ih with ⟨st, hst, hle⟩ | ⟨hbS, v, hv, hvle⟩
    · exact Or.inl ⟨st, hst, le_trans hle (gns_total_le hbc)⟩
    · have hbc' : c ∈ get_next_states m
          ⟨b.position, b.total_heat_loss, b.direction, b.distance_in_current_direction⟩
          minB maxB := hbc
      rcases gns_shift v hbc' with ⟨n', hn', hkey, htot⟩
      rcases hinv.relaxed b.key hbS v hv n' hn' with ⟨v', hv', hv'le⟩
      have hv'c : dlookup dist c.key = some v' := by
        rw [← hkey]
        exact hv'
      have hv'le' : v' ≤ c.total_heat_loss := by omega
      rcases hinv.live c.key v' hv'c with hS | ⟨st, hst, hstk, hstt⟩
      · exact Or.inr ⟨hS, v', hv'c, hv'le'⟩
      · refine Or.inl ⟨st, hst, ?_⟩
        rw [hstt]
        exact hv'le'

lemma frontier_goal {m : HeatLossMap} {start goal : Position} {minB maxB : Nat}
    {dist : List (Key × Nat)} {heap : List State} {S : List Key}
    (hinv : Inv m start goal minB maxB dist heap S)
    {z : State} (hz : ReachesFrom m start minB maxB z) (hzp : z.position = goal)
    (hzd : minB ≤ z.distance_in_current_direction) :
    ∃ st ∈ heap, st.total_heat_loss ≤ z.total_heat_loss := by
  rcases frontier hinv z hz with h | ⟨hS, -⟩
  · exact h
  · exact absurd ⟨hzp, hzd⟩ (hinv.nogoal z.key hS)

lemma inv_initial (m : HeatLossMap) (start goal : Position) (minB maxB : Nat) :
    Inv m start goal minB maxB [((initState start).key, 0)] [initState start] [] := by
  refine ⟨List.nodup_nil, ?_, ?_, ?_, ?_, ?_, ?_, ?_, ?_, ?_, ?_, ?_, ?_⟩
  · intro k hk
    cases hk
  · intro st hst
    rcases List.mem_singleton.mp hst with rfl
    exact List.mem_cons_self _ _
  · intro st hst
    rcases List.mem_singleton.mp hst with rfl
    exact ⟨0, dlookup_cons_self, le_refl 0⟩
  · intro k hk
    cases hk
  · intro k hk
    cases hk
  · intro k hk
    cases hk
  · exact List.pairwise_singleton _ _
  · intro k v hv
    by_cases hk : (initState start).key = k
    · refine Or.inr ⟨initState start, List.mem_cons_self _ _, hk, ?_⟩
      rw [← hk, dlookup_cons_self] at hv
      exact Option.some.inj hv
    · rw [dlookup_cons_ne hk] at hv
      simp [dlookup] at hv
  · intro k hk
    cases hk
  · intro k hk
    cases hk
  · intro st hst
    rcases List.mem_singleton.mp hst with rfl
    exact Relation.ReflTransGen.refl
  · exact ⟨0, dlookup_cons_self, le_refl 0⟩

lemma spLoop_no_fuel_exhaustion {m : HeatLossMap} {start goal : Position}
    {minB maxB : Nat} :
    ∀ (fuel : Nat) (dist : List (Key × Nat)) (heap : List State) (S : List Key),
    Inv m start goal minB maxB dist heap S →
    heap.length + 4 * ((keyList m start maxB).length - S.length) < fuel →
    (spLoop m goal minB maxB fuel dist heap).1 ≠ none := by
  intro fuel
  induction fuel with
  | zero =>
    intro dist heap S hinv hμ
    exact absurd hμ (Nat.not_lt_zero _)
  | succ fuel ih =>
    intro dist heap S hinv hμ
    cases hp : heapPop heap with
    | none =>
      rw [spLoop_succ_empty hp]
      simp
    | some sh =>
      rcases sh with ⟨u, h₁⟩
      have hlen := heapPop_length hp
      by_cases hg : u.position = goal ∧ minB ≤ u.distance_in_current_direction
      · rw [spLoop_succ_goal hp hg]
        simp
      · by_cases hst : (dlookup dist u.key).getD 0 < u.total_heat_loss
        · rw [spLoop_succ_stale hp hg hst]
          dsimp only []
          refine ih dist h₁ S (inv_stale hinv hp hst) ?_
          omega
        · rw [spLoop_succ_expand hp hg hst]
          dsimp only []
          rcases inv_expand hinv hp hg hst with ⟨huS, hinv'⟩
          refine ih _ _ (u.key :: S) hinv' ?_
          have hS1 : (u.key :: S).length ≤ (keyList m start maxB).length :=
            (hinv'.snodup.subperm (fun k hk => hinv'.skeys k hk)).length_le
          have hgl : (get_next_states m u minB maxB).length ≤ 4 :=
            @gns_length_le m u minB maxB
          have hh2 : (relaxAll dist h₁ (get_next_states m u minB maxB)).2.1.length ≤
              h₁.length + (get_next_states m u minB maxB).length :=
            relaxAll_heap_length
          simp only [List.length_cons] at hS1 ⊢
          omega

lemma spLoop_sound_optimal {m : HeatLossMap} {start goal : Position}
    {minB maxB : Nat} :
    ∀ (fuel : Nat) (dist : List (Key × Nat)) (heap : List State) (S : List Key),
    Inv m start goal minB maxB dist heap S → ∀ c,
    (spLoop m goal minB maxB fuel dist heap).1 = some (some c) →
    (∃ z, ReachesFrom m start minB maxB z ∧ z.position = goal ∧
      minB ≤ z.distance_in_current_direction ∧ z.total_heat_loss = c) ∧
    (∀ z, ReachesFrom m start minB maxB z → z.position = goal →
      minB ≤ z.distance_in_current_direction → c ≤ z.total_heat_loss) := by
  intro fuel
  induction fuel with
  | zero =>
    intro dist heap S hinv c hres
    simp [spLoop] at hres
  | succ fuel ih =>
    intro dist heap S hinv c hres
    cases hp : heapPop heap with
    | none =>
      rw [spLoop_succ_empty hp] at hres
      simp at hres
    | some sh =>
      rcases sh with ⟨u, h₁⟩
      by_cases hg : u.position = goal ∧ minB ≤ u.distance_in_current_direction
      · rw [spLoop_succ_goal hp hg] at hres
        have hc : u.total_heat_loss = c := by simpa using hres
        constructor
        · exact ⟨u, hinv.hreach u (heapPop_mem hp), hg.1, hg.2, hc⟩
        · intro z hz hzp hzd
          rcases frontier_goal hinv hz hzp hzd with ⟨st, hst, hle⟩
          have hmin := heapPop_min hp st hst
          omega
      · by_cases hst : (dlookup dist u.key).getD 0 < u.total_heat_loss
        · rw [spLoop_succ_stale hp hg hst] at hres
          dsimp only [] at hres
          exact ih dist h₁ S (inv_stale hinv hp hst) c hres
        · rw [spLoop_succ_expand hp hg hst] at hres
          dsimp only [] at hres
          exact ih _ _ (u.key :: S) (inv_expand hinv hp hg hst).2 c hres

lemma spLoop_complete {m : HeatLossMap} {start goal : Position} {minB maxB : Nat} :
    ∀ (fuel : Nat) (dist : List (Key × Nat)) (heap : List State) (S : List Key),
    Inv m start goal minB maxB dist heap S →
    (spLoop m goal minB maxB fuel dist heap).1 = some none →
    ∀ z, ReachesFrom m start minB maxB z → z.position = goal →
      minB ≤ z.distance_in_current_direction → False := by
  intro fuel
  induction fuel with
  | zero =>
    intro dist heap S hinv hres
    simp [spLoop] at hres
  | succ fuel ih =>
    intro dist heap S hinv hres z hz hzp hzd
    cases hp : heapPop heap with
    | none =>
      have hemp : heap = [] := heapPop_eq_none.mp hp
      rcases frontier_goal hinv hz hzp hzd with ⟨st, hst, -⟩
      rw [hemp] at hst
      cases hst
    | some sh =>
      rcases sh with ⟨u, h₁⟩
      by_cases hg : u.position = goal ∧ minB ≤ u.distance_in_current_direction
      · rw [spLoop_succ_goal hp hg] at hres
        simp at hres
      · by_cases hst : (dlookup dist u.key).getD 0 < u.total_heat_loss
        · rw [spLoop_succ_stale hp hg hst] at hres
          dsimp only [] at hres
          exact ih dist h₁ S (inv_stale hinv hp hst) hres z hz hzp hzd
        · rw [spLoop_succ_expand hp hg hst] at hres
          dsimp only [] at hres
          exact ih _ _ (u.key :: S) (inv_expand hinv hp hg hst).2 hres z hz hzp hzd

lemma sp_fuel_ok (m : HeatLossMap) (start goal : Position) (minB maxB : Nat) :
    (spRun m start goal minB maxB).1 ≠ none := by
  unfold spRun
  refine spLoop_no_fuel_exhaustion (spFuel m start maxB) _ _ []
    (inv_initial m start goal minB maxB) ?_
  unfold spFuel
  simp only [List.length_singleton, List.length_nil, Nat.sub_zero]
  omega

lemma sp_some_correct {m : HeatLossMap} {start goal : Position} {minB maxB : Nat}
    {c : Nat} (h : shortest_path m start goal minB maxB = some c) :
    (∃ z, ReachesFrom m start minB maxB z ∧ z.position = goal ∧
      minB ≤ z.distance_in_current_direction ∧ z.total_heat_loss = c) ∧
    (∀ z, ReachesFrom m start minB maxB z → z.position = goal →
      minB ≤ z.distance_in_current_direction → c ≤ z.total_heat_loss) := by
  unfold shortest_path at h
  cases hr : (spRun m start goal minB maxB).1 with
  | none =>
    rw [hr] at h
    cases h
  | some r =>
    rw [hr] at h
    dsimp only [] at h
    rw [h] at hr
    unfold spRun at hr
    exact spLoop_sound_optimal (spFuel m start maxB) _ _ []
      (inv_initial m start goal minB maxB) c hr

lemma sp_none_iff (m : HeatLossMap) (start goal : Position) (minB maxB : Nat) :
    shortest_path m start goal minB maxB = none ↔
      ¬∃ z, ReachesFrom m start minB maxB z ∧ z.position = goal ∧
        minB ≤ z.distance_in_current_direction := by
  constructor
  · intro h
    rintro ⟨z, hz, hzp, hzd⟩
    unfold shortest_path at h
    cases hr : (spRun m start goal minB maxB).1 with
    | none => exact sp_fuel_ok m start goal minB maxB hr
    | some r =>
      rw [hr] at h
      dsimp only [] at h
      rw [h] at hr
      unfold spRun at hr
      exact spLoop_complete (spFuel m start maxB) _ _ []
        (inv_initial m start goal minB maxB) hr z hz hzp hzd
  · intro hno
    cases ho : shortest_path m start goal minB maxB with
    | none => rfl
    | some c =>
      rcases (sp_some_correct ho).1 with ⟨z, hz, hzp, hzd, -⟩
      exact absurd ⟨z, hz, hzp, hzd⟩ hno

/-- Claim C1: whenever `shortest_path` returns `Some c`, some sequence of
legal motion-model transitions from the initial state reaches a state at the
goal position with run length at least `min_blocks_straight` and total
entering-cost `c`, and no such sequence has total cost below `c`. -/
theorem shortest_path_sound_and_optimal (m : HeatLossMap) (start goal : Position)
    (minB maxB c : Nat) (_hwf : WellFormed m)
    (h : shortest_path m start goal minB maxB = some c) :
    (∃ z, ReachesFrom m start minB maxB z ∧ z.position = goal ∧
      minB ≤ z.distance_in_current_direction ∧ z.total_heat_loss = c) ∧
    (∀ z, ReachesFrom m start minB maxB z → z.position = goal →
      minB ≤ z.distance_in_current_direction → c ≤ z.total_heat_loss) :=
  sp_some_correct h

/-- Witness for `shortest_path_sound_and_optimal` on a concrete 1×2 grid. -/
theorem shortest_path_sound_and_optimal_witness :
    ∃ z, ReachesFrom map12 ⟨0, 0⟩ 0 2 z ∧ z.position = ⟨0, 1⟩ ∧
      0 ≤ z.distance_in_current_direction ∧ z.total_heat_loss = 1 :=
  (shortest_path_sound_and_optimal map12 ⟨0, 0⟩ ⟨0, 1⟩ 0 2 1
    ⟨by decide, by decide, by decide⟩ (by rfl)).1

/-- Claim C5 (corrected): `shortest_path` performs no validation at all — on
malformed bounds it simply runs the ordinary search; in particular whenever
`min_blocks_straight > max_blocks_straight` it returns the ordinary `none`
(no distinct configuration error exists in its interface). -/
theorem min_gt_max_returns_none (m : HeatLossMap) (start goal : Position)
    (minB maxB : Nat) (h : maxB < minB) :
    shortest_path m start goal minB maxB = none := by
  rw [sp_none_iff]
  rintro ⟨z, hz, hzp, hzd⟩
  unfold ReachesFrom at hz
  rcases Relation.ReflTransGen.cases_tail hz with heq | ⟨b, -, hstep⟩
  · rw [heq] at hzd
    simp [initState] at hzd
    omega
  · have hdd := (gns_dd_bounds hstep).2
    omega

/-- Claim C5, counterexample to the claim as stated: with
`min_run = 5 > max_run = 2` the call is not rejected with a configuration
error; the search runs and returns the ordinary absent result. -/
theorem no_config_error_cex : shortest_path map1 ⟨0, 0⟩ ⟨0, 0⟩ 5 2 = none := by
  rfl

/-- Witness for `min_gt_max_returns_none` at a concrete input. -/
theorem min_gt_max_returns_none_witness :
    shortest_path map3 ⟨0, 0⟩ ⟨2, 2⟩ 3 1 = none :=
  min_gt_max_returns_none map3 ⟨0, 0⟩ ⟨2, 2⟩ 3 1 (by decide)

/-- Claim C7: for a well-formed cost map the search loop always terminates
within its fuel bound (it never panics — every partial operation it performs
is backed by an invariant), and it returns `none` exactly when no sequence of
legal transitions from the initial state reaches the goal position with run
length at least `min_blocks_straight`. -/
theorem shortest_path_terminates_none_iff_unreachable (m : HeatLossMap)
    (start goal : Position) (minB maxB : Nat) (_hwf : WellFormed m) :
    (spRun m start goal minB maxB).1 ≠ none ∧
    (shortest_path m start goal minB maxB = none ↔
      ¬∃ z, ReachesFrom m start minB maxB z ∧ z.position = goal ∧
        minB ≤ z.distance_in_current_direction) :=
  ⟨sp_fuel_ok m start goal minB maxB, sp_none_iff m start goal minB maxB⟩

/-- Witness for `shortest_path_terminates_none_iff_unreachable` on a concrete
grid. -/
theorem shortest_path_terminates_none_iff_unreachable_witness :
    (spRun map12 ⟨0, 0⟩ ⟨0, 1⟩ 0 2).1 ≠ none :=
  (shortest_path_terminates_none_iff_unreachable map12 ⟨0, 0⟩ ⟨0, 1⟩ 0 2
    ⟨by decide, by decide, by decide⟩).1

end Day17
